import Mathlib

/-!
Shallow embedding of the department / course / syllabus / logout logic of the
university backend (apps `academics`, `courses`, `accounts`).

The department store is a list of rows; `create_department`, `Department.save`,
`Department.delete` and the view-level `get_queryset` are translated directly
from `academics/models.py` and `academics/views.py`.  The database's string
ordering used by `order_by('-id')` is modelled as lexicographic comparison of
the character sequences (which is what both Python string comparison and the
database's text ordering do on ASCII ids), and Python's `int()` on the id
strings (always plain digit strings here) is modelled by `pyInt`.
-/

/-- Boolean strict comparison of characters by code point. -/
def charLtB (a b : Char) : Bool := decide (a < b)

/-- Lexicographic strict comparison of character lists, as Python and the
database compare strings of ASCII characters. -/
def charListLt : List Char → List Char → Bool
  | _, [] => false
  | [], _ :: _ => true
  | a :: as, b :: bs => charLtB a b || (a == b && charListLt as bs)

/-- String comparison used by `order_by('-id')`: lexicographic on characters. -/
def strLt (s t : String) : Bool := charListLt s.data t.data

/-- Numeric value of a decimal digit list (most significant digit first). -/
def digitsVal (l : List Char) : Nat := l.foldl (fun n c => 10 * n + (c.toNat - 48)) 0

/-- Numeric value of a digit string; `idVal "1009" = 1009`. -/
def idVal (s : String) : Nat := digitsVal s.data

/-- Model of Python `int()` on the id strings occurring here: defined exactly on
nonempty digit strings (on anything else `int()` raises, modelled by `none`). -/
def pyInt (s : String) : Option Nat :=
  if !s.data.isEmpty && s.data.all Char.isDigit then some (digitsVal s.data) else none

/-- Character for a decimal digit value. -/
def digitChar (d : Nat) : Char := Char.ofNat (48 + d)

/-- Model of Python's `f"{n:04d}"` for `n ≤ 9999` (the allocator checks
`next_id ≤ MAX_ID = 9999` before formatting, so the wider-than-four-digit case
of `%04d` is never reached in the source). -/
def format04 (n : Nat) : String :=
  String.mk [digitChar (n / 1000 % 10), digitChar (n / 100 % 10),
             digitChar (n / 10 % 10), digitChar (n % 10)]

/-- Check for the validator `RegexValidator(r'^\d{4}$')` on `Department.id`
(together with `max_length=4`): exactly four decimal digits. -/
def validId4 (s : String) : Bool := s.data.length == 4 && s.data.all Char.isDigit

/-- Check for `RegexValidator(r'^[a-zA-Z\s&]+$')` and `max_length=50` on
`Department.name`: nonempty, at most 50 characters, each a letter, whitespace
or ampersand. -/
def validName (s : String) : Bool :=
  !s.data.isEmpty && s.data.length ≤ 50 &&
    s.data.all (fun c => c.isAlpha || c.isWhitespace || c == '&')

/-- Values of the `Faculty` enum, as produced by `Faculty.choices()`. -/
def facultyChoices : List String := ["I&C", "E&T", "I&R", "LS", "LAMS", "MS", "SC", "CCSD"]

/-- Row of the `Department` table: the model fields the business logic reads
(audit fields are framework-managed and not read by any of it). -/
structure Department where
  id : String
  name : String
  faculty : String
  is_deleted : Bool
deriving Repr, DecidableEq

/-- Department table state. -/
abbrev Store := List Department

/-- Errors raised on the department creation / save paths. -/
inductive DeptErr where
  /-- `ValueError` raised by Python's `int()` on a non-numeric id. -/
  | invalidInt
  /-- `ValueError("Department ID cannot exceed 9999")`. -/
  | capacity
  /-- `ValueError("Use Department.objects.create_department() ...")`. -/
  | factoryGuard
  /-- `ValidationError` from `full_clean` (field validators or `clean`). -/
  | validation
  /-- Duplicate primary key (unique validation on the `id` field). -/
  | pkConflict
  /-- Conditional constraint `unique_active_name_faculty`. -/
  | uniqueActive
deriving Repr, DecidableEq

/-- `DepartmentManager.INITIAL_ID`. -/
def INITIAL_ID : Nat := 1000

/-- `DepartmentManager.MAX_ID`. -/
def MAX_ID : Nat := 9999

/-- Rows with `is_deleted=False`, i.e. `self.filter(is_deleted=False)`. -/
def activeRows (store : Store) : Store := store.filter (fun d => !d.is_deleted)

/-- Fold step picking the row with the larger id string. -/
def maxByIdStep (acc : Option Department) (d : Department) : Option Department :=
  match acc with
  | none => some d
  | some m => if strLt m.id d.id then some d else some m

/-- Row with the maximal id string, or `none` on the empty list: the result of
`order_by('-id').first()`. -/
def maxByStrId (l : Store) : Option Department := l.foldl maxByIdStep none

/-- The source's `self.filter(is_deleted=False).order_by('-id').first()`. -/
def maxActiveDept (store : Store) : Option Department := maxByStrId (activeRows store)

/-- Numeric maximum of the active ids (0 when there is none); used to state
what the allocator computes. -/
def maxActiveIdVal (store : Store) : Nat :=
  ((activeRows store).map (fun d => idVal d.id)).foldl max 0

/-- The allocator's `next_id`: `INITIAL_ID` if no active department exists,
otherwise `int(last_dept.id) + 1`; `none` models `int()` raising. -/
def next_id? (store : Store) : Option Nat :=
  match maxActiveDept store with
  | none => some INITIAL_ID
  | some m =>
    match pyInt m.id with
    | none => none
    | some v => some (v + 1)

/-- Model of `Model.full_clean()` on a new `Department` row: field validators
(`id` regex, `name` regex and length, `faculty` choices), then
`Department.clean` (`id == f"{int(id):04d}"`), then unique validation of the
primary key against all stored rows, then the conditional constraint
`unique_active_name_faculty` against active rows.  `none` means clean. -/
def dept_full_clean (store : Store) (d : Department) : Option DeptErr :=
  if !(validId4 d.id && validName d.name && facultyChoices.contains d.faculty) then
    some .validation
  else if !(d.id == format04 (idVal d.id)) then
    some .validation
  else if store.any (fun r => r.id == d.id) then
    some .pkConflict
  else if store.any (fun r => !r.is_deleted && r.name == d.name && r.faculty == d.faculty) then
    some .uniqueActive
  else
    none

/-- `Department.save` on a new instance: the factory guard
(`if not self.pk and not hasattr(self, '_id_set_by_manager'): raise`),
then `full_clean`, then the insert.  `id_set_by_manager` is the
`_id_set_by_manager` attribute at entry; the `department_pre_save` signal only
fires inside `super().save()`, after the guard has already run, so it cannot
satisfy the guard for the save in progress. -/
def Department.save (store : Store) (d : Department) (id_set_by_manager : Bool) :
    Except DeptErr Store :=
  if d.id == "" && !id_set_by_manager then .error .factoryGuard
  else
    match dept_full_clean store d with
    | some e => .error e
    | none => .ok (store ++ [d])

/-- `DepartmentManager.create_department`: compute `next_id` from the active
row with the maximal id string, fail if it exceeds `MAX_ID`, format it as
`f"{next_id:04d}"` and save the new row.  The whole call runs in
`transaction.atomic()`, so on any error the store is returned unchanged. -/
def create_department (store : Store) (name faculty : String) :
    Except DeptErr Department × Store :=
  match next_id? store with
  | none => (.error .invalidInt, store)
  | some next_id =>
    if MAX_ID < next_id then (.error .capacity, store)
    else
      let d : Department := ⟨format04 next_id, name, faculty, false⟩
      match Department.save store d false with
      | .error e => (.error e, store)
      | .ok s' => (.ok d, s')

/-- Soft deletion: flip `is_deleted` on the row with the given primary key and
persist it (the row is updated in place, never removed). -/
def deleteSoft (store : Store) (dept_id : String) : Store :=
  store.map (fun d => if d.id == dept_id then { d with is_deleted := true } else d)

/-- `Department.delete(soft=...)`: soft deletion by default, hard deletion
(row removal) only on the explicit `soft=False` path. -/
def Department.delete (store : Store) (d : Department) (soft : Bool := true) : Store :=
  if soft then deleteSoft store d.id else store.filter (fun r => !(r.id == d.id))

/-- `DepartmentViewSet.get_queryset`: staff users see all rows, everyone else
only the active ones. -/
def get_queryset (store : Store) (is_authenticated is_staff : Bool) : Store :=
  if is_authenticated && is_staff then store else store.filter (fun d => !d.is_deleted)

/-- One transition of the department store through the controlled interface:
a successful `create_department` or a soft deletion. -/
inductive Step : Store → Store → Prop where
  | create (s : Store) (n f : String) (d : Department) (s' : Store) :
      create_department s n f = (.ok d, s') → Step s s'
  | softDelete (s : Store) (dept_id : String) : Step s (deleteSoft s dept_id)

/-- Stores reachable from `s` by a sequence of `Step`s. -/
inductive ReachableFrom : Store → Store → Prop where
  | refl (s : Store) : ReachableFrom s s
  | tail {s t u : Store} : ReachableFrom s t → Step t u → ReachableFrom s u

/-- Stores reachable from the empty table through the controlled interface. -/
def Reachable (s : Store) : Prop := ReachableFrom [] s

/-- Run a list of `(name, faculty)` creation requests in order, collecting the
ids allocated by the successful ones (a failed creation, being atomic, leaves
the store unchanged and allocates nothing). -/
def runCreates (store : Store) : List (String × String) → Store × List String
  | [] => (store, [])
  | (n, f) :: rest =>
    match create_department store n f with
    | (.ok d, s') =>
      let p := runCreates s' rest
      (p.1, d.id :: p.2)
    | (.error _, _) => runCreates store rest

/-- Well-formedness of a store: every id is a four-digit string and ids are
pairwise distinct (the primary-key property). -/
def GoodStore (s : Store) : Prop :=
  (∀ d ∈ s, validId4 d.id = true) ∧ (s.map (fun d => d.id)).Nodup

/-- Uniqueness of `(name, faculty)` among active rows, the invariant of the
conditional constraint `unique_active_name_faculty`. -/
def ActivePairsUnique (s : Store) : Prop :=
  List.Pairwise
    (fun a b =>
      ¬(a.is_deleted = false ∧ b.is_deleted = false ∧ a.name = b.name ∧ a.faculty = b.faculty))
    s

/-- Ids are inside the allocator's range `1000 ... 9999`. -/
def RangeOK (s : Store) : Prop :=
  ∀ d ∈ s, INITIAL_ID ≤ idVal d.id ∧ idVal d.id ≤ MAX_ID

/-- Stores in which no row has been soft-deleted. -/
def AllActive (s : Store) : Prop := ∀ d ∈ s, d.is_deleted = false

/-- Row of the `Course` table (the fields `Syllabus.save` reads). -/
structure Course where
  course_code : String
  course_name : String
deriving Repr, DecidableEq

/-- Row of the `Syllabus` table (the fields the snapshot logic touches). -/
structure Syllabus where
  course : String
  course_name : String
  version : String
deriving Repr, DecidableEq

/-- `Syllabus.save`: `self.course_name = self.course.course_name` before the
write; the foreign-key dereference `self.course` looks the linked course up by
`course_code` and fails if it does not exist (`none`). -/
def Syllabus.save (courses : List Course) (syl : Syllabus) : Option Syllabus :=
  match courses.find? (fun c => c.course_code == syl.course) with
  | some c => some { syl with course_name := c.course_name }
  | none => none

/-- Database state for the courses app. -/
structure CourseDB where
  courses : List Course
  syllabi : List Syllabus
deriving Repr, DecidableEq

/-- Create a syllabus: run `Syllabus.save` on the fresh instance and append
the saved row. -/
def createSyllabus (db : CourseDB) (syl : Syllabus) : Option CourseDB :=
  match Syllabus.save db.courses syl with
  | some s => some { db with syllabi := db.syllabi ++ [s] }
  | none => none

/-- Rename a course (an update of `Course.course_name`). -/
def renameCourse (courses : List Course) (code newName : String) : List Course :=
  courses.map (fun c => if c.course_code == code then { c with course_name := newName } else c)

/-- Rename a course inside the database state; syllabus rows are not touched. -/
def renameCourseDB (db : CourseDB) (code newName : String) : CourseDB :=
  { db with courses := renameCourse db.courses code newName }

/-- Update (re-save) the stored syllabus at position `i`: `Syllabus.save` runs
again on the stored row and the result is written back. -/
def updateSyllabus (db : CourseDB) (i : Nat) : Option CourseDB :=
  match db.syllabi.get? i with
  | none => none
  | some syl =>
    match Syllabus.save db.courses syl with
    | some s => some { db with syllabi := db.syllabi.set i s }
    | none => none

/-- The `course_name` a retrieval of syllabus `i` returns: the serializer
reads the stored `course_name` field of the row. -/
def getSyllabusCourseName (db : CourseDB) (i : Nat) : Option String :=
  match db.syllabi.get? i with
  | some syl => some syl.course_name
  | none => none

/-- Body of the `try` block of `LogoutView.post`: blacklist the refresh token
when one was supplied (`blacklist` models `RefreshToken(...)` plus
`token.blacklist()` and may raise), then return HTTP 200. -/
def logout_body (refresh : Option String) (blacklist : String → Except String Unit) :
    Except String (Nat × String) :=
  match refresh with
  | some t =>
    match blacklist t with
    | .ok _ => .ok (200, "Logged out successfully")
    | .error e => .error e
  | none => .ok (200, "Logged out successfully")

/-- `LogoutView.post`: the `except` handler turns any error raised by the body
into the same HTTP 200 success response. -/
def LogoutView_post (refresh : Option String) (blacklist : String → Except String Unit) :
    Nat × String :=
  match logout_body refresh blacklist with
  | .ok r => r
  | .error _ => (200, "Logged out successfully")

theorem charLt_iff {a b : Char} : a < b ↔ a.toNat < b.toNat := ⟨fun h => h, fun h => h⟩
theorem char_eq_of_toNat_eq {a b : Char} (h : a.toNat = b.toNat) : a = b :=
  Char.eq_of_val_eq (UInt32.ext h)
theorem isDigit_bounds {c : Char} (h : c.isDigit = true) : 48 ≤ c.toNat ∧ c.toNat ≤ 57 := by
  simp [Char.isDigit] at h
  exact ⟨h.1, h.2⟩
theorem digitsVal_from (l : List Char) (n : Nat) :
    l.foldl (fun n c => 10 * n + (c.toNat - 48)) n = n * 10 ^ l.length + digitsVal l := by
  induction l generalizing n with
  | nil => simp [digitsVal]
  | cons c l ih =>
    simp only [List.foldl_cons, digitsVal, List.length_cons]
    rw [ih (10 * n + (c.toNat - 48)), ih (10 * 0 + (c.toNat - 48))]
    ring
theorem digitsVal_cons (c : Char) (l : List Char) :
    digitsVal (c :: l) = (c.toNat - 48) * 10 ^ l.length + digitsVal l := by
  show List.foldl _ _ (c :: l) = _
  rw [List.foldl_cons, digitsVal_from]
  ring_nf
theorem digitsVal_lt {l : List Char} (h : ∀ c ∈ l, c.isDigit = true) :
    digitsVal l < 10 ^ l.length := by
  induction l with
  | nil => simp [digitsVal]
  | cons c l ih =>
    have hc := isDigit_bounds (h c (by simp))
    have hrest := ih (fun x hx => h x (by simp [hx]))
    rw [digitsVal_cons, List.length_cons, pow_succ]
    calc (c.toNat - 48) * 10 ^ l.length + digitsVal l
        < (c.toNat - 48) * 10 ^ l.length + 10 ^ l.length := by omega
      _ = (c.toNat - 48 + 1) * 10 ^ l.length := by ring
      _ ≤ 10 * 10 ^ l.length := Nat.mul_le_mul_right _ (by omega)
      _ = 10 ^ l.length * 10 := by ring

theorem charListLt_eq_decide :
    ∀ l₁ l₂ : List Char, l₁.length = l₂.length →
      (∀ c ∈ l₁, c.isDigit = true) → (∀ c ∈ l₂, c.isDigit = true) →
      charListLt l₁ l₂ = decide (digitsVal l₁ < digitsVal l₂)
  | [], [], _, _, _ => by simp [charListLt, digitsVal]
  | [], c :: l, hlen, _, _ => by simp at hlen
  | c :: l, [], hlen, _, _ => by simp at hlen
  | a :: as, b :: bs, hlen, h₁, h₂ => by
    have hlen' : as.length = bs.length := by simpa using hlen
    have ha := isDigit_bounds (h₁ a (by simp))
    have hb := isDigit_bounds (h₂ b (by simp))
    have hva : digitsVal as < 10 ^ as.length := digitsVal_lt (fun c hc => h₁ c (by simp [hc]))
    have hvb : digitsVal bs < 10 ^ bs.length := digitsVal_lt (fun c hc => h₂ c (by simp [hc]))
    have ih := charListLt_eq_decide as bs hlen' (fun c hc => h₁ c (by simp [hc]))
      (fun c hc => h₂ c (by simp [hc]))
    rw [digitsVal_cons, digitsVal_cons, hlen']
    show (charLtB a b || (a == b && charListLt as bs)) = _
    rcases Nat.lt_trichotomy a.toNat b.toNat with hab | hab | hab
    · have h1 : charLtB a b = true := by
        simp [charLtB, charLt_iff]
        omega
      have h2 : (a.toNat - 48) * 10 ^ bs.length + digitsVal as
          < (b.toNat - 48) * 10 ^ bs.length + digitsVal bs := by
        have : (a.toNat - 48) * 10 ^ bs.length + digitsVal as
            < (a.toNat - 48 + 1) * 10 ^ bs.length := by
          rw [hlen'] at hva
          nlinarith
        have h3 : (a.toNat - 48 + 1) * 10 ^ bs.length ≤ (b.toNat - 48) * 10 ^ bs.length :=
          Nat.mul_le_mul_right _ (by omega)
        omega
      simp [h1, h2]
    · have heq : a = b := char_eq_of_toNat_eq hab
      subst heq
      have h1 : charLtB a a = false := by simp [charLtB, charLt_iff]
      simp [h1, ih, hab]
    · have h1 : charLtB a b = false := by
        simp [charLtB, charLt_iff]
        omega
      have hne : (a == b) = false := by
        apply beq_eq_false_iff_ne.mpr
        intro he
        subst he
        omega
      have h2 : ¬ ((a.toNat - 48) * 10 ^ bs.length + digitsVal as
          < (b.toNat - 48) * 10 ^ bs.length + digitsVal bs) := by
        have : (b.toNat - 48) * 10 ^ bs.length + digitsVal bs
            < (b.toNat - 48 + 1) * 10 ^ bs.length := by
          nlinarith
        have h3 : (b.toNat - 48 + 1) * 10 ^ bs.length ≤ (a.toNat - 48) * 10 ^ bs.length :=
          Nat.mul_le_mul_right _ (by omega)
        omega
      simp [h1, hne, h2]
theorem validId4_iff {s : String} :
    validId4 s = true ↔ s.data.length = 4 ∧ ∀ c ∈ s.data, c.isDigit = true := by
  simp [validId4, List.all_eq_true]

theorem strLt_eq_decide {a b : String} (ha : validId4 a = true) (hb : validId4 b = true) :
    strLt a b = decide (idVal a < idVal b) := by
  rw [validId4_iff] at ha hb
  exact charListLt_eq_decide a.data b.data (ha.1.trans hb.1.symm) ha.2 hb.2

theorem digitChar_toNat {d : Nat} (h : d < 10) : (digitChar d).toNat = 48 + d := by
  interval_cases d <;> decide

theorem digitChar_isDigit {d : Nat} (h : d < 10) : (digitChar d).isDigit = true := by
  interval_cases d <;> decide

theorem format04_data (n : Nat) :
    (format04 n).data = [digitChar (n / 1000 % 10), digitChar (n / 100 % 10),
      digitChar (n / 10 % 10), digitChar (n % 10)] := rfl

theorem validId4_format04 (n : Nat) : validId4 (format04 n) = true := by
  rw [validId4_iff, format04_data]
  refine ⟨rfl, ?_⟩
  intro c hc
  simp only [List.mem_cons, List.not_mem_nil, or_false] at hc
  rcases hc with h | h | h | h <;>
    (subst h; exact digitChar_isDigit (Nat.mod_lt _ (by norm_num)))

theorem idVal_format04 {n : Nat} (h : n ≤ 9999) : idVal (format04 n) = n := by
  show digitsVal (format04 n).data = n
  rw [format04_data]
  have h0 : n / 1000 % 10 < 10 := Nat.mod_lt _ (by norm_num)
  have h1 : n / 100 % 10 < 10 := Nat.mod_lt _ (by norm_num)
  have h2 : n / 10 % 10 < 10 := Nat.mod_lt _ (by norm_num)
  have h3 : n % 10 < 10 := Nat.mod_lt _ (by norm_num)
  simp only [digitsVal, List.foldl_cons, List.foldl_nil,
    digitChar_toNat h0, digitChar_toNat h1, digitChar_toNat h2, digitChar_toNat h3]
  omega

theorem format04_idVal {s : String} (h : validId4 s = true) : format04 (idVal s) = s := by
  rw [validId4_iff] at h
  obtain ⟨l⟩ := s
  obtain ⟨hlen, hdig⟩ := h
  simp only [idVal] at *
  match l, hlen with
  | [a, b, c, d], _ =>
    have ha := isDigit_bounds (hdig a (by simp))
    have hb := isDigit_bounds (hdig b (by simp))
    have hc := isDigit_bounds (hdig c (by simp))
    have hd := isDigit_bounds (hdig d (by simp))
    have hval : digitsVal [a, b, c, d] =
        1000 * (a.toNat - 48) + 100 * (b.toNat - 48) + 10 * (c.toNat - 48) + (d.toNat - 48) := by
      simp only [digitsVal, List.foldl_cons, List.foldl_nil]
      ring
    show String.mk _ = String.mk _
    congr 1
    have e0 : digitsVal [a, b, c, d] / 1000 % 10 = a.toNat - 48 := by omega
    have e1 : digitsVal [a, b, c, d] / 100 % 10 = b.toNat - 48 := by omega
    have e2 : digitsVal [a, b, c, d] / 10 % 10 = c.toNat - 48 := by omega
    have e3 : digitsVal [a, b, c, d] % 10 = d.toNat - 48 := by omega
    rw [e0, e1, e2, e3]
    have fa : digitChar (a.toNat - 48) = a := by
      show Char.ofNat (48 + (a.toNat - 48)) = a
      have : 48 + (a.toNat - 48) = a.toNat := by omega
      rw [this, Char.ofNat_toNat]
    have fb : digitChar (b.toNat - 48) = b := by
      show Char.ofNat (48 + (b.toNat - 48)) = b
      have : 48 + (b.toNat - 48) = b.toNat := by omega
      rw [this, Char.ofNat_toNat]
    have fc : digitChar (c.toNat - 48) = c := by
      show Char.ofNat (48 + (c.toNat - 48)) = c
      have : 48 + (c.toNat - 48) = c.toNat := by omega
      rw [this, Char.ofNat_toNat]
    have fd : digitChar (d.toNat - 48) = d := by
      show Char.ofNat (48 + (d.toNat - 48)) = d
      have : 48 + (d.toNat - 48) = d.toNat := by omega
      rw [this, Char.ofNat_toNat]
    rw [fa, fb, fc, fd]

theorem pyInt_of_valid {s : String} (h : validId4 s = true) : pyInt s = some (idVal s) := by
  rw [validId4_iff] at h
  have hne : s.data.isEmpty = false := by
    cases hdata : s.data with
    | nil => rw [hdata] at h; simp at h
    | cons a l => simp
  have hall : s.data.all Char.isDigit = true := List.all_eq_true.mpr h.2
  simp [pyInt, hne, hall, idVal]

theorem format04_ne_empty (n : Nat) : (format04 n == "") = false := by
  apply beq_eq_false_iff_ne.mpr
  intro he
  have : (format04 n).data = ("" : String).data := congrArg String.data he
  rw [format04_data] at this
  simp at this
theorem maxByIdStep_none {d : Department} : maxByIdStep none d = some d := rfl

theorem maxByIdStep_some {m d : Department} :
    maxByIdStep (some m) d = if strLt m.id d.id then some d else some m := rfl

theorem foldl_maxByIdStep_eq_none {l : Store} {acc : Option Department}
    (h : l.foldl maxByIdStep acc = none) : acc = none ∧ l = [] := by
  induction l generalizing acc with
  | nil => exact ⟨h, rfl⟩
  | cons d l ih =>
    rw [List.foldl_cons] at h
    rcases ih h with ⟨hstep, -⟩
    exfalso
    cases acc with
    | none => rw [maxByIdStep_none] at hstep; cases hstep
    | some m =>
      rw [maxByIdStep_some] at hstep
      rcases hc : strLt m.id d.id with _ | _ <;> rw [hc] at hstep <;> simp at hstep

theorem foldl_maxByIdStep_mem {l : Store} {acc : Option Department} {r : Department}
    (h : l.foldl maxByIdStep acc = some r) : acc = some r ∨ r ∈ l := by
  induction l generalizing acc with
  | nil => exact .inl h
  | cons d l ih =>
    rw [List.foldl_cons] at h
    rcases ih h with hstep | hmem
    · cases acc with
      | none =>
        rw [maxByIdStep_none] at hstep
        cases hstep
        exact .inr (List.mem_cons_self _ _)
      | some m =>
        rw [maxByIdStep_some] at hstep
        rcases hc : strLt m.id d.id with _ | _ <;> rw [hc] at hstep <;> simp at hstep
        · exact .inl (by rw [hstep])
        · exact .inr (by simp [hstep])
    · exact .inr (List.mem_cons_of_mem _ hmem)

theorem foldl_maxByIdStep_ge {l : Store} {acc : Option Department} {r : Department}
    (hval : ∀ d ∈ l, validId4 d.id = true)
    (hacc : ∀ m, acc = some m → validId4 m.id = true)
    (h : l.foldl maxByIdStep acc = some r) :
    (∀ d ∈ l, idVal d.id ≤ idVal r.id) ∧ (∀ m, acc = some m → idVal m.id ≤ idVal r.id) := by
  induction l generalizing acc with
  | nil =>
    refine ⟨by simp, ?_⟩
    intro m hm
    rw [hm] at h
    cases h
    exact le_refl _
  | cons d l ih =>
    rw [List.foldl_cons] at h
    have hval' : ∀ x ∈ l, validId4 x.id = true := fun x hx => hval x (List.mem_cons_of_mem _ hx)
    have hvald : validId4 d.id = true := hval d (List.mem_cons_self _ _)
    have hacc' : ∀ m, maxByIdStep acc d = some m → validId4 m.id = true := by
      intro m hm
      cases acc with
      | none =>
        rw [maxByIdStep_none] at hm
        cases hm
        exact hvald
      | some m0 =>
        rw [maxByIdStep_some] at hm
        rcases hc : strLt m0.id d.id with _ | _ <;> rw [hc] at hm <;> simp at hm
        · rw [← hm]
          exact hacc m0 rfl
        · rw [← hm]
          exact hvald
    have hrec := ih hval' hacc' h
    have hstep_le : ∀ m, maxByIdStep acc d = some m → idVal m.id ≤ idVal r.id := hrec.2
    have hd_le : idVal d.id ≤ idVal r.id := by
      cases acc with
      | none => exact hstep_le d (by rw [maxByIdStep_none])
      | some m0 =>
        have hm0 : validId4 m0.id = true := hacc m0 rfl
        rcases hc : strLt m0.id d.id with _ | _
        · have hdec := strLt_eq_decide hm0 hvald
          rw [hc] at hdec
          have hge : idVal d.id ≤ idVal m0.id := by
            have := of_decide_eq_false hdec.symm
            omega
          have hm0r : idVal m0.id ≤ idVal r.id := by
            apply hstep_le m0
            rw [maxByIdStep_some, hc]
            simp
          omega
        · apply hstep_le d
          rw [maxByIdStep_some, hc]
          simp
    refine ⟨?_, ?_⟩
    · intro x hx
      rcases List.mem_cons.mp hx with hx | hx
      · rw [hx]
        exact hd_le
      · exact hrec.1 x hx
    · intro m hm
      subst hm
      have hm0 : validId4 m.id = true := hacc m rfl
      rcases hc : strLt m.id d.id with _ | _
      · apply hstep_le m
        rw [maxByIdStep_some, hc]
        simp
      · have hdec := strLt_eq_decide hm0 hvald
        rw [hc] at hdec
        have hlt : idVal m.id < idVal d.id := of_decide_eq_true hdec.symm
        omega

theorem maxActiveDept_none_iff {s : Store} : maxActiveDept s = none ↔ activeRows s = [] := by
  constructor
  · intro h
    exact (foldl_maxByIdStep_eq_none h).2
  · intro h
    simp [maxActiveDept, maxByStrId, h]

theorem maxActiveDept_mem {s : Store} {r : Department} (h : maxActiveDept s = some r) :
    r ∈ activeRows s := by
  rcases foldl_maxByIdStep_mem h with h' | h'
  · cases h'
  · exact h'

theorem maxActiveDept_ge {s : Store} {r : Department}
    (hval : ∀ d ∈ s, validId4 d.id = true) (h : maxActiveDept s = some r) :
    ∀ d ∈ activeRows s, idVal d.id ≤ idVal r.id := by
  have hval' : ∀ d ∈ activeRows s, validId4 d.id = true :=
    fun d hd => hval d (List.mem_of_mem_filter hd)
  exact (foldl_maxByIdStep_ge hval' (fun m hm => by cases hm) h).1

theorem foldl_max_init {l : List Nat} {a : Nat} : a ≤ l.foldl max a := by
  induction l generalizing a with
  | nil => exact le_refl _
  | cons b l ih =>
    rw [List.foldl_cons]
    exact le_trans (le_max_left _ _) ih

theorem le_foldl_max {l : List Nat} {a x : Nat} (h : x ∈ l) : x ≤ l.foldl max a := by
  induction l generalizing a with
  | nil => cases h
  | cons b l ih =>
    rw [List.foldl_cons]
    rcases List.mem_cons.mp h with h | h
    · subst h
      exact le_trans (le_max_right _ _) foldl_max_init
    · exact ih h

theorem foldl_max_cases (l : List Nat) (a : Nat) : l.foldl max a = a ∨ l.foldl max a ∈ l := by
  induction l generalizing a with
  | nil => exact .inl rfl
  | cons b l ih =>
    rw [List.foldl_cons]
    rcases ih (max a b) with h | h
    · rcases Nat.le_total a b with hab | hab
      · have hb : List.foldl max (max a b) l = b := by rw [h, max_eq_right hab]
        exact .inr (by simp [hb])
      · exact .inl (by rw [h, max_eq_left hab])
    · exact .inr (List.mem_cons_of_mem _ h)
theorem maxActiveIdVal_eq {s : Store} {r : Department}
    (hval : ∀ d ∈ s, validId4 d.id = true) (h : maxActiveDept s = some r) :
    maxActiveIdVal s = idVal r.id := by
  have hmem : r ∈ activeRows s := maxActiveDept_mem h
  have hle : idVal r.id ≤ maxActiveIdVal s :=
    le_foldl_max (List.mem_map_of_mem (fun d => idVal d.id) hmem)
  have hge : maxActiveIdVal s ≤ idVal r.id := by
    rcases foldl_max_cases ((activeRows s).map (fun d => idVal d.id)) 0 with hc | hc
    · rw [maxActiveIdVal, hc]
      exact Nat.zero_le _
    · rcases List.mem_map.mp hc with ⟨d, hd, hdv⟩
      rw [maxActiveIdVal, ← hdv]
      exact maxActiveDept_ge hval h d hd
  omega

theorem next_id_of_empty {s : Store} (h : activeRows s = []) :
    next_id? s = some INITIAL_ID := by
  rw [next_id?, maxActiveDept_none_iff.mpr h]

theorem next_id_of_max {s : Store} {r : Department}
    (hval : ∀ d ∈ s, validId4 d.id = true) (h : maxActiveDept s = some r) :
    next_id? s = some (maxActiveIdVal s + 1) := by
  have hv : validId4 r.id = true := hval r (List.mem_of_mem_filter (maxActiveDept_mem h))
  simp only [next_id?, h, pyInt_of_valid hv, maxActiveIdVal_eq hval h]

theorem next_id_of_ne {s : Store} (hval : ∀ d ∈ s, validId4 d.id = true)
    (h : activeRows s ≠ []) : next_id? s = some (maxActiveIdVal s + 1) := by
  cases hm : maxActiveDept s with
  | none => exact absurd (maxActiveDept_none_iff.mp hm) h
  | some r => exact next_id_of_max hval hm

theorem create_ok_spec {s : Store} {n f : String} {d : Department} {s' : Store}
    (h : create_department s n f = (.ok d, s')) :
    ∃ v, next_id? s = some v ∧ v ≤ MAX_ID ∧ d = ⟨format04 v, n, f, false⟩ ∧
      dept_full_clean s d = none ∧ s' = s ++ [d] := by
  cases hnext : next_id? s with
  | none =>
    simp only [create_department, hnext] at h
    simp at h
  | some v =>
    simp only [create_department, hnext] at h
    by_cases hcap : MAX_ID < v
    · rw [if_pos hcap] at h
      simp at h
    · rw [if_neg hcap] at h
      simp only [Department.save, format04_ne_empty, Bool.not_false, Bool.and_true] at h
      rw [if_neg (by simp)] at h
      cases hclean : dept_full_clean s ⟨format04 v, n, f, false⟩ with
      | some e =>
        rw [hclean] at h
        simp at h
      | none =>
        rw [hclean] at h
        simp only [Prod.mk.injEq, Except.ok.injEq] at h
        obtain ⟨hd, hs⟩ := h
        subst hd
        exact ⟨v, rfl, by omega, rfl, hclean, hs.symm⟩
theorem create_ok_of {s : Store} {n f : String} {v : Nat} (hnext : next_id? s = some v)
    (hcap : v ≤ MAX_ID) (hclean : dept_full_clean s ⟨format04 v, n, f, false⟩ = none) :
    create_department s n f =
      (.ok ⟨format04 v, n, f, false⟩, s ++ [⟨format04 v, n, f, false⟩]) := by
  simp only [create_department, hnext]
  rw [if_neg (by omega)]
  simp only [Department.save, format04_ne_empty, Bool.not_false, Bool.and_true]
  rw [if_neg (by simp)]
  rw [hclean]

theorem full_clean_none_spec {s : Store} {d : Department}
    (h : dept_full_clean s d = none) :
    validId4 d.id = true ∧ validName d.name = true ∧ facultyChoices.contains d.faculty = true ∧
    (∀ r ∈ s, r.id ≠ d.id) ∧
    (∀ r ∈ s, ¬(r.is_deleted = false ∧ r.name = d.name ∧ r.faculty = d.faculty)) := by
  rw [dept_full_clean] at h
  by_cases h1 : (validId4 d.id && validName d.name && facultyChoices.contains d.faculty) = true
  · rw [if_neg (by rw [h1]; simp)] at h
    simp only [Bool.and_eq_true] at h1
    by_cases h2 : (d.id == format04 (idVal d.id)) = true
    · rw [if_neg (by simp [h2])] at h
      by_cases h3 : s.any (fun r => r.id == d.id) = true
      · rw [if_pos h3] at h
        cases h
      · rw [if_neg h3] at h
        by_cases h4 :
            s.any (fun r => !r.is_deleted && r.name == d.name && r.faculty == d.faculty) = true
        · rw [if_pos h4] at h
          cases h
        · refine ⟨h1.1.1, h1.1.2, h1.2, ?_, ?_⟩
          · intro r hr he
            apply h3
            rw [List.any_eq_true]
            exact ⟨r, hr, by simp [he]⟩
          · rintro r hr ⟨ha, hn, hf⟩
            apply h4
            rw [List.any_eq_true]
            refine ⟨r, hr, ?_⟩
            simp [ha, hn, hf]
    · rw [if_pos (by simp [h2])] at h
      cases h
  · cases hb : (validId4 d.id && validName d.name && facultyChoices.contains d.faculty) with
    | true => exact absurd hb h1
    | false =>
      rw [if_pos (by rw [hb]; simp)] at h
      cases h

theorem full_clean_none_of {s : Store} {d : Department}
    (h1 : validId4 d.id = true) (h2 : validName d.name = true)
    (h3 : facultyChoices.contains d.faculty = true)
    (h4 : ∀ r ∈ s, r.id ≠ d.id)
    (h5 : ∀ r ∈ s, ¬(r.is_deleted = false ∧ r.name = d.name ∧ r.faculty = d.faculty)) :
    dept_full_clean s d = none := by
  have hpk : ¬ s.any (fun r => r.id == d.id) = true := by
    rw [List.any_eq_true]
    rintro ⟨r, hr, hbeq⟩
    exact h4 r hr (by simpa using hbeq)
  have hpair :
      ¬ s.any (fun r => !r.is_deleted && r.name == d.name && r.faculty == d.faculty) = true := by
    rw [List.any_eq_true]
    rintro ⟨r, hr, hbeq⟩
    apply h5 r hr
    simp only [Bool.and_eq_true, Bool.not_eq_true', beq_iff_eq] at hbeq
    exact ⟨hbeq.1.1, hbeq.1.2, hbeq.2⟩
  rw [dept_full_clean, if_neg (by rw [h1, h2, h3]; simp), if_neg (by simp [format04_idVal h1]),
    if_neg hpk, if_neg hpair]
theorem INITIAL_ID_eq : INITIAL_ID = 1000 := rfl

theorem MAX_ID_eq : MAX_ID = 9999 := rfl

theorem deleteSoft_map_id (s : Store) (x : String) :
    (deleteSoft s x).map (fun d => d.id) = s.map (fun d => d.id) := by
  rw [deleteSoft, List.map_map]
  apply List.map_congr_left
  intro d _
  by_cases h : (d.id == x) = true <;> simp [Function.comp, h]

theorem deleteSoft_mem {s : Store} {x : String} {e : Department} (h : e ∈ deleteSoft s x) :
    ∃ d ∈ s, e = d ∨ e = { d with is_deleted := true } := by
  rw [deleteSoft] at h
  rcases List.mem_map.mp h with ⟨d, hd, he⟩
  refine ⟨d, hd, ?_⟩
  by_cases hc : (d.id == x) = true
  · rw [if_pos hc] at he
    exact .inr he.symm
  · rw [if_neg hc] at he
    exact .inl he.symm

theorem deleteSoft_mem_of_mem {s : Store} {x : String} {d : Department} (h : d ∈ s) :
    (if d.id == x then { d with is_deleted := true } else d) ∈ deleteSoft s x :=
  List.mem_map_of_mem _ h

theorem goodStore_append {s : Store} {d : Department} (hg : GoodStore s)
    (hv : validId4 d.id = true) (hfresh : ∀ r ∈ s, r.id ≠ d.id) : GoodStore (s ++ [d]) := by
  constructor
  · intro e he
    rcases List.mem_append.mp he with he | he
    · exact hg.1 e he
    · rw [List.mem_singleton.mp he]
      exact hv
  · rw [List.map_append]
    rw [List.nodup_append]
    refine ⟨hg.2, List.nodup_singleton _, ?_⟩
    intro i hi hj
    rcases List.mem_map.mp hi with ⟨r, hr, hri⟩
    simp only [List.map_cons, List.map_nil, List.mem_singleton] at hj
    exact hfresh r hr (by rw [hri, hj])

theorem goodStore_create {s : Store} {n f : String} {d : Department} {s' : Store}
    (hg : GoodStore s) (h : create_department s n f = (.ok d, s')) : GoodStore s' := by
  rcases create_ok_spec h with ⟨v, -, hcap, hd, hclean, hs⟩
  rcases full_clean_none_spec hclean with ⟨hv, -, -, hfresh, -⟩
  rw [hs]
  exact goodStore_append hg hv hfresh

theorem goodStore_deleteSoft {s : Store} (hg : GoodStore s) (x : String) :
    GoodStore (deleteSoft s x) := by
  constructor
  · intro e he
    rcases deleteSoft_mem he with ⟨r, hr, he | he⟩ <;> rw [he]
    · exact hg.1 r hr
    · exact hg.1 r hr
  · rw [deleteSoft_map_id]
    exact hg.2

theorem rangeOK_create {s : Store} {n f : String} {d : Department} {s' : Store}
    (hg : GoodStore s) (hr : RangeOK s) (h : create_department s n f = (.ok d, s')) :
    RangeOK s' := by
  rcases create_ok_spec h with ⟨v, hnext, hcap, hd, hclean, hs⟩
  have hval : INITIAL_ID ≤ v := by
    cases hm : maxActiveDept s with
    | none =>
      rw [next_id_of_empty (maxActiveDept_none_iff.mp hm)] at hnext
      cases hnext
      exact le_refl _
    | some m =>
      have hmv : validId4 m.id = true := hg.1 m (List.mem_of_mem_filter (maxActiveDept_mem hm))
      simp only [next_id?, hm, pyInt_of_valid hmv] at hnext
      cases hnext
      have := (hr m (List.mem_of_mem_filter (maxActiveDept_mem hm))).1
      exact le_trans this (Nat.le_succ _)
  intro e he
  rw [hs] at he
  rcases List.mem_append.mp he with he | he
  · exact hr e he
  · rw [List.mem_singleton.mp he, hd]
    have hiv : idVal (format04 v) = v := idVal_format04 (le_trans hcap (by rw [MAX_ID_eq]))
    simp only [hiv]
    exact ⟨hval, hcap⟩

theorem rangeOK_deleteSoft {s : Store} (hr : RangeOK s) (x : String) :
    RangeOK (deleteSoft s x) := by
  intro e he
  rcases deleteSoft_mem he with ⟨r, hrr, he | he⟩ <;> rw [he]
  · exact hr r hrr
  · exact hr r hrr

theorem step_invariant {s t : Store} (h : Step s t) (hg : GoodStore s) (hr : RangeOK s) :
    GoodStore t ∧ RangeOK t := by
  cases h with
  | create n f d s' hc => exact ⟨goodStore_create hg hc, rangeOK_create hg hr hc⟩
  | softDelete x => exact ⟨goodStore_deleteSoft hg x, rangeOK_deleteSoft hr x⟩

theorem reachableFrom_invariant {s t : Store} (h : ReachableFrom s t)
    (hg : GoodStore s) (hr : RangeOK s) : GoodStore t ∧ RangeOK t := by
  induction h with
  | refl => exact ⟨hg, hr⟩
  | tail hst hstep ih => exact step_invariant hstep ih.1 ih.2

theorem reachable_invariant {s : Store} (h : Reachable s) : GoodStore s ∧ RangeOK s :=
  reachableFrom_invariant h ⟨by simp, List.nodup_nil⟩ (by intro d hd; cases hd)

theorem step_ids {s t : Store} (h : Step s t) :
    ∀ i ∈ s.map (fun d => d.id), i ∈ t.map (fun d => d.id) := by
  cases h with
  | create n f d s' hc =>
    rcases create_ok_spec hc with ⟨v, -, -, -, -, hs⟩
    intro i hi
    rw [hs, List.map_append]
    exact List.mem_append_left _ hi
  | softDelete x =>
    intro i hi
    rw [deleteSoft_map_id]
    exact hi

theorem reachableFrom_ids {s t : Store} (h : ReachableFrom s t) :
    ∀ i ∈ s.map (fun d => d.id), i ∈ t.map (fun d => d.id) := by
  induction h with
  | refl => exact fun i hi => hi
  | tail hst hstep ih => exact fun i hi => step_ids hstep i (ih i hi)

theorem activePairs_create {s : Store} {n f : String} {d : Department} {s' : Store}
    (hp : ActivePairsUnique s) (h : create_department s n f = (.ok d, s')) :
    ActivePairsUnique s' := by
  rcases create_ok_spec h with ⟨v, -, -, hd, hclean, hs⟩
  rcases full_clean_none_spec hclean with ⟨-, -, -, -, hpair⟩
  rw [hs, ActivePairsUnique, List.pairwise_append]
  refine ⟨hp, List.pairwise_singleton _ _, ?_⟩
  intro a ha b hb
  rw [List.mem_singleton.mp hb]
  rintro ⟨haa, -, hn, hf⟩
  exact hpair a ha ⟨haa, hn, hf⟩

theorem activePairs_deleteSoft {s : Store} (hp : ActivePairsUnique s) (x : String) :
    ActivePairsUnique (deleteSoft s x) := by
  rw [deleteSoft]
  refine List.Pairwise.map _ ?_ hp
  intro a b hab hcon
  apply hab
  have hfa : ∀ c : Department,
      ((if c.id == x then { c with is_deleted := true } else c) : Department).name = c.name ∧
      ((if c.id == x then { c with is_deleted := true } else c) : Department).faculty =
        c.faculty := by
    intro c
    by_cases hc : (c.id == x) = true <;> simp [hc]
  have hact : ∀ c : Department,
      ((if c.id == x then { c with is_deleted := true } else c) : Department).is_deleted =
        false → c.is_deleted = false := by
    intro c hc
    by_cases h : (c.id == x) = true
    · rw [if_pos h] at hc
      simp at hc
    · rw [if_neg h] at hc
      exact hc
  rcases hcon with ⟨ha, hb, hn, hf⟩
  refine ⟨hact a ha, hact b hb, ?_, ?_⟩
  · rw [← (hfa a).1, ← (hfa b).1]
    exact hn
  · rw [← (hfa a).2, ← (hfa b).2]
    exact hf
theorem activeRows_of_allActive {s : Store} (h : AllActive s) : activeRows s = s :=
  List.filter_eq_self.mpr (fun r hr => by simp [h r hr])

theorem create_ok_allActive {s : Store} {n f : String} {d : Department} {s' : Store}
    (hg : GoodStore s) (hr : RangeOK s) (ha : AllActive s)
    (h : create_department s n f = (.ok d, s')) :
    s' = s ++ [d] ∧ d.is_deleted = false ∧ validId4 d.id = true ∧
    INITIAL_ID ≤ idVal d.id ∧ idVal d.id ≤ MAX_ID ∧
    (∀ r ∈ s, idVal r.id < idVal d.id) ∧ (s = [] → d.id = "1000") := by
  rcases create_ok_spec h with ⟨v, hnext, hcap, hd, hclean, hs⟩
  have hvle : v ≤ 9999 := le_trans hcap (by rw [MAX_ID_eq])
  have hiv : idVal d.id = v := by
    rw [hd]
    exact idVal_format04 hvle
  have hact : activeRows s = s := activeRows_of_allActive ha
  have hgt : ∀ r ∈ s, idVal r.id < idVal d.id := by
    intro r hrs
    cases hm : maxActiveDept s with
    | none =>
      exfalso
      have hnil : s = [] := by
        rw [← hact]
        exact maxActiveDept_none_iff.mp hm
      rw [hnil] at hrs
      cases hrs
    | some m =>
      have hmv : validId4 m.id = true := hg.1 m (List.mem_of_mem_filter (maxActiveDept_mem hm))
      simp only [next_id?, hm, pyInt_of_valid hmv] at hnext
      have hle : idVal r.id ≤ idVal m.id := by
        apply maxActiveDept_ge hg.1 hm
        rw [hact]
        exact hrs
      have hveq : some (idVal m.id + 1) = some v := hnext
      have hv : v = idVal m.id + 1 := by
        cases hveq
        rfl
      omega
  have hrange : INITIAL_ID ≤ idVal d.id ∧ idVal d.id ≤ MAX_ID := by
    rw [hiv]
    refine ⟨?_, hcap⟩
    cases hm : maxActiveDept s with
    | none =>
      rw [next_id_of_empty (maxActiveDept_none_iff.mp hm)] at hnext
      cases hnext
      exact le_refl _
    | some m =>
      have hmv : validId4 m.id = true := hg.1 m (List.mem_of_mem_filter (maxActiveDept_mem hm))
      simp only [next_id?, hm, pyInt_of_valid hmv] at hnext
      have hbound := (hr m (List.mem_of_mem_filter (maxActiveDept_mem hm))).1
      have hveq : some (idVal m.id + 1) = some v := hnext
      cases hveq
      exact le_trans hbound (Nat.le_succ _)
  have hnil : s = [] → d.id = "1000" := by
    intro hse
    have hae : activeRows s = [] := by rw [hact, hse]
    rw [next_id_of_empty hae] at hnext
    cases hnext
    rw [hd]
    rfl
  exact ⟨hs, by rw [hd], by rw [hd]; exact validId4_format04 v, hrange.1, hrange.2, hgt, hnil⟩

theorem allActive_append {s : Store} {d : Department} (ha : AllActive s)
    (hd : d.is_deleted = false) : AllActive (s ++ [d]) := by
  intro r hr
  rcases List.mem_append.mp hr with hr | hr
  · exact ha r hr
  · rw [List.mem_singleton.mp hr]
    exact hd

theorem runCreates_spec :
    ∀ (reqs : List (String × String)) (s s' : Store) (ids : List String),
      GoodStore s → RangeOK s → AllActive s → runCreates s reqs = (s', ids) →
      (∀ i ∈ ids, validId4 i = true ∧ 1000 ≤ idVal i ∧ idVal i ≤ 9999 ∧
        ∀ r ∈ s, idVal r.id < idVal i) ∧
      List.Chain' (fun a b => idVal a < idVal b) ids ∧
      (s = [] → ∀ i0 t, ids = i0 :: t → i0 = "1000")
  | [], s, s', ids, hg, hr, ha, hrun => by
    simp only [runCreates, Prod.mk.injEq] at hrun
    rw [← hrun.2]
    exact ⟨by simp, List.chain'_nil, by intro _ i0 t ht; cases ht⟩
  | (n, f) :: rest, s, s', ids, hg, hr, ha, hrun => by
    rcases hcreate : create_department s n f with ⟨res, s1⟩
    cases res with
    | error e =>
      simp only [runCreates, hcreate] at hrun
      exact runCreates_spec rest s s' ids hg hr ha hrun
    | ok d =>
      simp only [runCreates, hcreate] at hrun
      rcases hrest : runCreates s1 rest with ⟨s2, ids2⟩
      rw [hrest] at hrun
      simp only [Prod.mk.injEq] at hrun
      have hca := create_ok_allActive hg hr ha hcreate
      have hg1 : GoodStore s1 := goodStore_create hg hcreate
      have hr1 : RangeOK s1 := rangeOK_create hg hr hcreate
      have ha1 : AllActive s1 := by
        rw [hca.1]
        exact allActive_append ha hca.2.1
      have ih := runCreates_spec rest s1 s2 ids2 hg1 hr1 ha1 hrest
      have hmemd : d ∈ s1 := by
        rw [hca.1]
        exact List.mem_append_right _ (List.mem_singleton_self _)
      have hsub : ∀ r ∈ s, r ∈ s1 := by
        intro r hrs
        rw [hca.1]
        exact List.mem_append_left _ hrs
      rw [← hrun.2]
      refine ⟨?_, ?_, ?_⟩
      · intro i hi
        rcases List.mem_cons.mp hi with hi | hi
        · subst hi
          refine ⟨hca.2.2.1, ?_, ?_, hca.2.2.2.2.2.1⟩
          · have := hca.2.2.2.1
            rw [INITIAL_ID_eq] at this
            exact this
          · have := hca.2.2.2.2.1
            rw [MAX_ID_eq] at this
            exact this
        · rcases ih.1 i hi with ⟨h1, h2, h3, h4⟩
          exact ⟨h1, h2, h3, fun r hrs => h4 r (hsub r hrs)⟩
      · refine List.chain'_cons'.mpr ⟨?_, ih.2.1⟩
        intro b hb
        have hbmem : b ∈ ids2 := List.mem_of_mem_head? hb
        exact (ih.1 b hbmem).2.2.2 d hmemd
      · intro hse i0 t ht
        injection ht with h1 h2
        rw [← h1]
        exact hca.2.2.2.2.2.2 hse
theorem chain_strLt_of_chain_lt :
    ∀ (l : List String), (∀ i ∈ l, validId4 i = true) →
      List.Chain' (fun a b => idVal a < idVal b) l →
      List.Chain' (fun a b => strLt a b = true) l
  | [], _, _ => List.chain'_nil
  | [a], _, _ => List.chain'_singleton a
  | a :: b :: t, hv, hc => by
    rw [List.chain'_cons] at hc ⊢
    have ha := hv a (List.mem_cons_self _ _)
    have hb := hv b (List.mem_cons_of_mem _ (List.mem_cons_self _ _))
    refine ⟨?_, chain_strLt_of_chain_lt (b :: t)
      (fun i hi => hv i (List.mem_cons_of_mem _ hi)) hc.2⟩
    rw [strLt_eq_decide ha hb]
    exact decide_eq_true hc.1

/-- C1: on a well-formed store, a successful `create_department` assigns id
`"1000"` when no active department exists and otherwise the maximum active id
plus one, zero-padded to four digits; and for every sequence of creations
starting from the empty store (no deletions), the allocated ids are
four-digit strings, strictly increasing both as strings and numerically, the
first being `"1000"`. -/
theorem create_department_id_allocation :
    (∀ s n f d s', GoodStore s → create_department s n f = (.ok d, s') →
      ((activeRows s = [] → d.id = "1000") ∧
       (activeRows s ≠ [] → d.id = format04 (maxActiveIdVal s + 1)))) ∧
    (∀ reqs s' ids, runCreates [] reqs = (s', ids) →
      (∀ i ∈ ids, validId4 i = true) ∧
      List.Chain' (fun a b => strLt a b = true) ids ∧
      List.Chain' (fun a b => idVal a < idVal b) ids ∧
      (∀ i0 t, ids = i0 :: t → i0 = "1000")) := by
  constructor
  · intro s n f d s' hg h
    rcases create_ok_spec h with ⟨v, hnext, hcap, hd, -, -⟩
    constructor
    · intro hempty
      rw [next_id_of_empty hempty] at hnext
      cases hnext
      rw [hd]
      rfl
    · intro hne
      rw [next_id_of_ne hg.1 hne] at hnext
      cases hnext
      rw [hd]
  · intro reqs s' ids hrun
    have hspec := runCreates_spec reqs [] s' ids ⟨by simp, List.nodup_nil⟩
      (by intro d hd; cases hd) (by intro d hd; cases hd) hrun
    have hval : ∀ i ∈ ids, validId4 i = true := fun i hi => (hspec.1 i hi).1
    exact ⟨hval, chain_strLt_of_chain_lt ids hval hspec.2.1, hspec.2.1,
      fun i0 t ht => hspec.2.2 rfl i0 t ht⟩

theorem create_department_id_allocation_witness :
    (GoodStore [(⟨"1000", "Mathematics", "SC", false⟩ : Department)] ∧
      (activeRows [(⟨"1000", "Mathematics", "SC", false⟩ : Department)] ≠ [] →
        (⟨"1001", "Physics", "SC", false⟩ : Department).id =
          format04 (maxActiveIdVal [(⟨"1000", "Mathematics", "SC", false⟩ : Department)] + 1))) ∧
    validId4 "1001" = true ∧
    List.Chain' (fun a b => strLt a b = true) ["1000", "1001"] ∧
    ("1000" : String) = "1000" := by
  have h1 := (create_department_id_allocation.1
    [(⟨"1000", "Mathematics", "SC", false⟩ : Department)] "Physics" "SC"
    ⟨"1001", "Physics", "SC", false⟩
    [⟨"1000", "Mathematics", "SC", false⟩, ⟨"1001", "Physics", "SC", false⟩]
    (by constructor
        · decide
        · decide)
    rfl).2
  have h2 := create_department_id_allocation.2 [("Mathematics", "SC"), ("Physics", "SC")]
    [⟨"1000", "Mathematics", "SC", false⟩, ⟨"1001", "Physics", "SC", false⟩]
    ["1000", "1001"] rfl
  exact ⟨⟨⟨by decide, by decide⟩, h1⟩, h2.1 "1001" (by decide), h2.2.1,
    h2.2.2.2 "1000" ["1001"] rfl⟩

/-- C2: when the maximum id among active departments is 9999, any call to
`create_department` fails with the capacity error and leaves the store
unchanged. -/
theorem create_department_capacity_error :
    ∀ s n f, GoodStore s → activeRows s ≠ [] → maxActiveIdVal s = 9999 →
      create_department s n f = (.error .capacity, s) := by
  intro s n f hg hne hmax
  have hnext : next_id? s = some (maxActiveIdVal s + 1) := next_id_of_ne hg.1 hne
  rw [hmax] at hnext
  simp only [create_department, hnext]
  rw [if_pos (by rw [MAX_ID_eq]; omega)]

theorem create_department_capacity_error_witness :
    create_department [(⟨"9999", "Mathematics", "SC", false⟩ : Department)] "Physics" "SC" =
      (.error .capacity, [(⟨"9999", "Mathematics", "SC", false⟩ : Department)]) :=
  create_department_capacity_error [⟨"9999", "Mathematics", "SC", false⟩] "Physics" "SC"
    (by constructor
        · decide
        · decide)
    (by decide) (by decide)
/-- C3: a successful `create_department` never assigns the id of a previously
soft-deleted department (in any store reachable from a reachable store in
which that department is already soft-deleted), and with department 1000
soft-deleted while 1001-1005 stay active the next allocation is "1006", not
"1000". -/
theorem soft_deleted_id_never_reassigned :
    (∀ s t d0 n f d s', Reachable s → d0 ∈ s → d0.is_deleted = true →
      ReachableFrom s t → create_department t n f = (.ok d, s') → d.id ≠ d0.id) ∧
    (create_department
        [⟨"1000", "History", "LAMS", true⟩, ⟨"1001", "Physics", "SC", false⟩,
         ⟨"1002", "Chemistry", "SC", false⟩, ⟨"1003", "Mathematics", "SC", false⟩,
         ⟨"1004", "Botany", "LS", false⟩, ⟨"1005", "Zoology", "LS", false⟩]
        "Sociology" "LAMS" =
      (.ok ⟨"1006", "Sociology", "LAMS", false⟩,
        [⟨"1000", "History", "LAMS", true⟩, ⟨"1001", "Physics", "SC", false⟩,
         ⟨"1002", "Chemistry", "SC", false⟩, ⟨"1003", "Mathematics", "SC", false⟩,
         ⟨"1004", "Botany", "LS", false⟩, ⟨"1005", "Zoology", "LS", false⟩,
         ⟨"1006", "Sociology", "LAMS", false⟩])) := by
  constructor
  · intro s t d0 n f d s' hreach hmem hdel hst h
    rcases create_ok_spec h with ⟨v, -, -, -, hclean, -⟩
    rcases full_clean_none_spec hclean with ⟨-, -, -, hfresh, -⟩
    have hid_s : d0.id ∈ s.map (fun r => r.id) := List.mem_map_of_mem _ hmem
    have hid_t : d0.id ∈ t.map (fun r => r.id) := reachableFrom_ids hst d0.id hid_s
    rcases List.mem_map.mp hid_t with ⟨r, hr, hrid⟩
    intro he
    exact hfresh r hr (by rw [hrid, ← he])
  · rfl

theorem soft_deleted_id_never_reassigned_witness :
    ("1002" : String) ≠ "1000" := by
  have step1 : Step [] [⟨"1000", "Mathematics", "SC", false⟩] :=
    Step.create [] "Mathematics" "SC" ⟨"1000", "Mathematics", "SC", false⟩
      [⟨"1000", "Mathematics", "SC", false⟩] rfl
  have step2 : Step [⟨"1000", "Mathematics", "SC", false⟩]
      [⟨"1000", "Mathematics", "SC", false⟩, ⟨"1001", "Physics", "SC", false⟩] :=
    Step.create [⟨"1000", "Mathematics", "SC", false⟩] "Physics" "SC"
      ⟨"1001", "Physics", "SC", false⟩
      [⟨"1000", "Mathematics", "SC", false⟩, ⟨"1001", "Physics", "SC", false⟩] rfl
  have step3 : Step [⟨"1000", "Mathematics", "SC", false⟩, ⟨"1001", "Physics", "SC", false⟩]
      [⟨"1000", "Mathematics", "SC", true⟩, ⟨"1001", "Physics", "SC", false⟩] :=
    Step.softDelete [⟨"1000", "Mathematics", "SC", false⟩, ⟨"1001", "Physics", "SC", false⟩]
      "1000"
  have hreach : Reachable [⟨"1000", "Mathematics", "SC", true⟩,
      ⟨"1001", "Physics", "SC", false⟩] :=
    ReachableFrom.tail (ReachableFrom.tail (ReachableFrom.tail (ReachableFrom.refl []) step1)
      step2) step3
  exact soft_deleted_id_never_reassigned.1
    [⟨"1000", "Mathematics", "SC", true⟩, ⟨"1001", "Physics", "SC", false⟩]
    [⟨"1000", "Mathematics", "SC", true⟩, ⟨"1001", "Physics", "SC", false⟩]
    ⟨"1000", "Mathematics", "SC", true⟩ "Chemistry" "SC"
    ⟨"1002", "Chemistry", "SC", false⟩
    [⟨"1000", "Mathematics", "SC", true⟩, ⟨"1001", "Physics", "SC", false⟩,
     ⟨"1002", "Chemistry", "SC", false⟩]
    hreach (by decide) rfl (ReachableFrom.refl _) rfl
/-- C4 counterexample: create a department, soft-delete it, then create a new
active department with the same `(name, faculty)` pair: the claim expects the
third step to succeed, but the allocator recomputes `next_id = 1000` from the
empty active set and the save fails on the duplicate primary key held by the
soft-deleted row (the store is left unchanged). -/
theorem same_pair_after_soft_delete_fails :
    create_department [] "Computer Science" "I&C" =
      (.ok ⟨"1000", "Computer Science", "I&C", false⟩,
        [⟨"1000", "Computer Science", "I&C", false⟩]) ∧
    deleteSoft [⟨"1000", "Computer Science", "I&C", false⟩] "1000" =
      [⟨"1000", "Computer Science", "I&C", true⟩] ∧
    create_department [⟨"1000", "Computer Science", "I&C", true⟩] "Computer Science" "I&C" =
      (.error .pkConflict, [⟨"1000", "Computer Science", "I&C", true⟩]) :=
  ⟨rfl, rfl, rfl⟩

/-- C4 (amended): among non-deleted departments, `(name, faculty)` pairs are
unique in every reachable state, and creating a second active department with
the same pair as an existing active one fails; after soft-deleting the
existing one the uniqueness constraint no longer blocks the pair, and the
creation succeeds provided the freshly allocated id does not collide with the
id of any existing (possibly soft-deleted) row. -/
theorem unique_active_name_faculty_pairs :
    (∀ s, Reachable s → ActivePairsUnique s) ∧
    (∀ s n f, (∃ r ∈ s, r.is_deleted = false ∧ r.name = n ∧ r.faculty = f) →
      ∀ d, (create_department s n f).1 ≠ .ok d) ∧
    (∀ s rid n f v, validName n = true → facultyChoices.contains f = true →
      (∀ r ∈ deleteSoft s rid, ¬(r.is_deleted = false ∧ r.name = n ∧ r.faculty = f)) →
      next_id? (deleteSoft s rid) = some v → v ≤ MAX_ID →
      (∀ r ∈ deleteSoft s rid, r.id ≠ format04 v) →
      create_department (deleteSoft s rid) n f =
        (.ok ⟨format04 v, n, f, false⟩, deleteSoft s rid ++ [⟨format04 v, n, f, false⟩])) := by
  refine ⟨?_, ?_, ?_⟩
  · have hgen : ∀ t u, ReachableFrom t u → ActivePairsUnique t → ActivePairsUnique u := by
      intro t u hru hat
      induction hru with
      | refl => exact hat
      | tail hst hstep ih =>
        cases hstep with
        | create n f d s' hc => exact activePairs_create ih hc
        | softDelete x => exact activePairs_deleteSoft ih x
    intro s h
    exact hgen [] s h List.Pairwise.nil
  · rintro s n f ⟨r, hr, hact, hn, hf⟩ d heq
    have hpair : create_department s n f = (.ok d, (create_department s n f).2) := by
      rw [← heq]
    rcases create_ok_spec hpair with ⟨v, -, -, hd, hclean, -⟩
    rcases full_clean_none_spec hclean with ⟨-, -, -, -, hp⟩
    apply hp r hr
    rw [hd]
    exact ⟨hact, hn, hf⟩
  · intro s rid n f v hn hf hpairs hnext hcap hfresh
    apply create_ok_of hnext hcap
    apply full_clean_none_of (validId4_format04 v) hn hf
    · intro r hr he
      exact hfresh r hr he
    · intro r hr hcon
      exact hpairs r hr ⟨hcon.1, hcon.2.1, hcon.2.2⟩

theorem unique_active_name_faculty_pairs_witness :
    ActivePairsUnique [(⟨"1000", "Computer Science", "I&C", false⟩ : Department),
      ⟨"1001", "Physics", "SC", false⟩] ∧
    (create_department [(⟨"1000", "Computer Science", "I&C", false⟩ : Department),
      ⟨"1001", "Physics", "SC", false⟩] "Computer Science" "I&C").1 ≠
      .ok ⟨"1002", "Computer Science", "I&C", false⟩ ∧
    create_department
        (deleteSoft [(⟨"1000", "Computer Science", "I&C", false⟩ : Department),
          ⟨"1001", "Physics", "SC", false⟩] "1000") "Computer Science" "I&C" =
      (.ok ⟨"1002", "Computer Science", "I&C", false⟩,
        deleteSoft [(⟨"1000", "Computer Science", "I&C", false⟩ : Department),
          ⟨"1001", "Physics", "SC", false⟩] "1000" ++
          [⟨"1002", "Computer Science", "I&C", false⟩]) := by
  have step1 : Step [] [⟨"1000", "Computer Science", "I&C", false⟩] :=
    Step.create [] "Computer Science" "I&C" ⟨"1000", "Computer Science", "I&C", false⟩
      [⟨"1000", "Computer Science", "I&C", false⟩] rfl
  have step2 : Step [⟨"1000", "Computer Science", "I&C", false⟩]
      [⟨"1000", "Computer Science", "I&C", false⟩, ⟨"1001", "Physics", "SC", false⟩] :=
    Step.create [⟨"1000", "Computer Science", "I&C", false⟩] "Physics" "SC"
      ⟨"1001", "Physics", "SC", false⟩
      [⟨"1000", "Computer Science", "I&C", false⟩, ⟨"1001", "Physics", "SC", false⟩] rfl
  have hreach : Reachable [(⟨"1000", "Computer Science", "I&C", false⟩ : Department),
      ⟨"1001", "Physics", "SC", false⟩] :=
    ReachableFrom.tail (ReachableFrom.tail (ReachableFrom.refl []) step1) step2
  refine ⟨unique_active_name_faculty_pairs.1 _ hreach, ?_, ?_⟩
  · exact unique_active_name_faculty_pairs.2.1 _ "Computer Science" "I&C"
      ⟨⟨"1000", "Computer Science", "I&C", false⟩, by decide, rfl, rfl, rfl⟩
      ⟨"1002", "Computer Science", "I&C", false⟩
  · exact unique_active_name_faculty_pairs.2.2 _ "1000" "Computer Science" "I&C" 1002
      (by decide) (by decide) (by decide) rfl (by decide) (by decide)
theorem deleteSoft_mem_cases {s : Store} {x : String} {e : Department}
    (h : e ∈ deleteSoft s x) :
    ∃ r ∈ s, (r.id ≠ x ∧ e = r) ∨ (r.id = x ∧ e = { r with is_deleted := true }) := by
  rw [deleteSoft] at h
  rcases List.mem_map.mp h with ⟨r, hr, he⟩
  refine ⟨r, hr, ?_⟩
  by_cases hc : (r.id == x) = true
  · rw [if_pos hc] at he
    exact .inr ⟨by simpa using hc, he.symm⟩
  · rw [if_neg hc] at he
    exact .inl ⟨by simpa using hc, he.symm⟩

/-- C5: the default `delete` soft-deletes: the row count is unchanged, a row
with the deleted department's id remains stored with `is_deleted = true`, that
row is still returned by the staff queryset, and every non-staff queryset
excludes it. -/
theorem default_delete_is_soft :
    ∀ s d, d ∈ s →
      (Department.delete s d).length = s.length ∧
      (∃ d' ∈ Department.delete s d, d'.id = d.id ∧ d'.is_deleted = true) ∧
      (∃ d' ∈ get_queryset (Department.delete s d) true true,
        d'.id = d.id ∧ d'.is_deleted = true) ∧
      (∀ a st, (a && st) = false →
        ∀ d' ∈ get_queryset (Department.delete s d) a st, d'.id ≠ d.id) := by
  intro s d hmem
  have hdel : Department.delete s d = deleteSoft s d.id := rfl
  have hrow : ({ d with is_deleted := true } : Department) ∈ deleteSoft s d.id := by
    have := deleteSoft_mem_of_mem (x := d.id) hmem
    rw [if_pos (by simp)] at this
    exact this
  refine ⟨?_, ?_, ?_, ?_⟩
  · rw [hdel, deleteSoft]
    exact List.length_map _ _
  · exact ⟨{ d with is_deleted := true }, by rw [hdel]; exact hrow, rfl, rfl⟩
  · refine ⟨{ d with is_deleted := true }, ?_, rfl, rfl⟩
    rw [hdel, get_queryset]
    exact hrow
  · intro a st hne d' hd' heq
    rw [hdel, get_queryset, if_neg (by rw [hne]; simp)] at hd'
    rcases List.mem_filter.mp hd' with ⟨hmem', hact⟩
    rcases deleteSoft_mem_cases hmem' with ⟨r, -, ⟨hrid, hre⟩ | ⟨-, hre⟩⟩
    · apply hrid
      rw [← hre]
      exact heq
    · rw [hre] at hact
      simp at hact

theorem default_delete_is_soft_witness :
    (Department.delete [(⟨"1000", "Mathematics", "SC", false⟩ : Department)]
        ⟨"1000", "Mathematics", "SC", false⟩).length = 1 ∧
    (∃ d' ∈ Department.delete [(⟨"1000", "Mathematics", "SC", false⟩ : Department)]
        ⟨"1000", "Mathematics", "SC", false⟩,
      d'.id = "1000" ∧ d'.is_deleted = true) ∧
    (∃ d' ∈ get_queryset (Department.delete
        [(⟨"1000", "Mathematics", "SC", false⟩ : Department)]
        ⟨"1000", "Mathematics", "SC", false⟩) true true,
      d'.id = "1000" ∧ d'.is_deleted = true) := by
  have h := default_delete_is_soft [(⟨"1000", "Mathematics", "SC", false⟩ : Department)]
    ⟨"1000", "Mathematics", "SC", false⟩ (by decide)
  exact ⟨h.1, h.2.1, h.2.2.1⟩

/-- C6 counterexample: a new `Department` constructed directly with an
explicit four-digit primary key, never passed through
`create_department`, saves successfully: the factory guard only fires when
the primary key is unset. -/
theorem direct_save_with_explicit_id_succeeds :
    Department.save [] ⟨"1234", "Mathematics", "SC", false⟩ false =
      .ok [⟨"1234", "Mathematics", "SC", false⟩] := rfl

/-- C6 (amended): saving a new `Department` whose primary key is unset and
which was not flagged by the manager path fails with the factory-guard error;
an instance constructed directly with an explicit id bypasses the guard. -/
theorem save_without_pk_hits_factory_guard :
    ∀ store d, d.id = "" → Department.save store d false = .error .factoryGuard := by
  intro store d h
  rw [Department.save, if_pos (by rw [h]; decide)]

theorem save_without_pk_hits_factory_guard_witness :
    Department.save [] ⟨"", "Mathematics", "SC", false⟩ false = .error .factoryGuard :=
  save_without_pk_hits_factory_guard [] ⟨"", "Mathematics", "SC", false⟩ rfl
/-- C7: creating a syllabus snapshots the linked course's current
`course_name` into the stored row, and renaming the course afterwards does not
change the `course_name` returned for the already-stored syllabus. -/
theorem syllabus_course_name_snapshot :
    ∀ db syl c db' code newName,
      db.courses.find? (fun k => k.course_code == syl.course) = some c →
      createSyllabus db syl = some db' →
      getSyllabusCourseName db' db.syllabi.length = some c.course_name ∧
      getSyllabusCourseName (renameCourseDB db' code newName) db.syllabi.length =
        some c.course_name := by
  intro db syl c db' code newName hfind hcreate
  have hsave : Syllabus.save db.courses syl = some { syl with course_name := c.course_name } := by
    simp only [Syllabus.save, hfind]
  simp only [createSyllabus, hsave, Option.some.injEq] at hcreate
  have hget : db'.syllabi.get? db.syllabi.length =
      some { syl with course_name := c.course_name } := by
    rw [← hcreate]
    exact List.get?_concat_length _ _
  have h1 : getSyllabusCourseName db' db.syllabi.length = some c.course_name := by
    simp only [getSyllabusCourseName, hget]
  refine ⟨h1, ?_⟩
  have hsyl : (renameCourseDB db' code newName).syllabi = db'.syllabi := rfl
  simp only [getSyllabusCourseName, hsyl, hget]

theorem syllabus_course_name_snapshot_witness :
    getSyllabusCourseName
        (renameCourseDB
          ⟨[⟨"CS101", "Introduction to Programming"⟩],
           [⟨"CS101", "Introduction to Programming", "1.0"⟩]⟩
          "CS101" "Advanced Programming")
        0 = some "Introduction to Programming" :=
  (syllabus_course_name_snapshot ⟨[⟨"CS101", "Introduction to Programming"⟩], []⟩
    ⟨"CS101", "", "1.0"⟩ ⟨"CS101", "Introduction to Programming"⟩
    ⟨[⟨"CS101", "Introduction to Programming"⟩],
     [⟨"CS101", "Introduction to Programming", "1.0"⟩]⟩
    "CS101" "Advanced Programming" rfl rfl).2

/-- C8: `LogoutView.post` reports success (HTTP 200 with the logout message)
for every request: with or without a refresh token, and also when
blacklisting the token raises. -/
theorem logout_always_reports_success :
    ∀ refresh blacklist,
      LogoutView_post refresh blacklist = (200, "Logged out successfully") := by
  intro refresh blacklist
  cases refresh with
  | none => rfl
  | some t =>
    cases hb : blacklist t with
    | ok u => simp only [LogoutView_post, logout_body, hb]
    | error e => simp only [LogoutView_post, logout_body, hb]

/-- C9: every save of a syllabus, not only the first, overwrites the stored
`course_name` with the linked course's current name, so re-saving a stored
syllabus after a course rename refreshes the snapshot. -/
theorem syllabus_resave_refreshes_course_name :
    (∀ courses syl c, courses.find? (fun k => k.course_code == syl.course) = some c →
      Syllabus.save courses syl = some { syl with course_name := c.course_name }) ∧
    (∀ db i syl c, db.syllabi.get? i = some syl →
      db.courses.find? (fun k => k.course_code == syl.course) = some c →
      ∃ db', updateSyllabus db i = some db' ∧
        getSyllabusCourseName db' i = some c.course_name) := by
  constructor
  · intro courses syl c hfind
    simp only [Syllabus.save, hfind]
  · intro db i syl c hget hfind
    have hsave : Syllabus.save db.courses syl =
        some { syl with course_name := c.course_name } := by
      simp only [Syllabus.save, hfind]
    refine ⟨{ db with syllabi := db.syllabi.set i { syl with course_name := c.course_name } },
      ?_, ?_⟩
    · simp only [updateSyllabus, hget, hsave]
    · have hlt : i < db.syllabi.length := by
        rcases List.get?_eq_some.mp hget with ⟨h, -⟩
        exact h
      have hset : (db.syllabi.set i { syl with course_name := c.course_name }).get? i =
          some { syl with course_name := c.course_name } := by
        rw [List.get?_eq_getElem?]
        rw [List.getElem?_set_self hlt]
      simp only [getSyllabusCourseName, hset]

theorem syllabus_resave_refreshes_course_name_witness :
    ∃ db', updateSyllabus
        ⟨[⟨"CS101", "Advanced Programming"⟩], [⟨"CS101", "Introduction", "1.0"⟩]⟩ 0 =
        some db' ∧
      getSyllabusCourseName db' 0 = some "Advanced Programming" :=
  syllabus_resave_refreshes_course_name.2
    ⟨[⟨"CS101", "Advanced Programming"⟩], [⟨"CS101", "Introduction", "1.0"⟩]⟩ 0
    ⟨"CS101", "Introduction", "1.0"⟩ ⟨"CS101", "Advanced Programming"⟩ rfl rfl

/-- C10: every id in a reachable store is a four-digit string whose value lies
in 1000-9999; on stores of valid ids, the row selected by string-maximal id is
an active row numerically maximal among the active ids; and `int()` followed
by four-digit zero-padded formatting round-trips every valid id. -/
theorem department_id_well_formed :
    (∀ s, Reachable s → ∀ d ∈ s,
      validId4 d.id = true ∧ 1000 ≤ idVal d.id ∧ idVal d.id ≤ 9999) ∧
    (∀ s, (∀ d ∈ s, validId4 d.id = true) → ∀ r, maxActiveDept s = some r →
      r ∈ activeRows s ∧ ∀ e ∈ activeRows s, idVal e.id ≤ idVal r.id) ∧
    (∀ str, validId4 str = true →
      pyInt str = some (idVal str) ∧ format04 (idVal str) = str) := by
  refine ⟨?_, ?_, ?_⟩
  · intro s h d hd
    rcases reachable_invariant h with ⟨hg, hr⟩
    have hb := hr d hd
    rw [INITIAL_ID_eq, MAX_ID_eq] at hb
    exact ⟨hg.1 d hd, hb.1, hb.2⟩
  · intro s hval r hm
    exact ⟨maxActiveDept_mem hm, maxActiveDept_ge hval hm⟩
  · intro str h
    exact ⟨pyInt_of_valid h, format04_idVal h⟩

theorem department_id_well_formed_witness :
    (validId4 "1000" = true ∧ 1000 ≤ idVal "1000" ∧ idVal "1000" ≤ 9999) ∧
    idVal "1001" ≤ idVal "1005" ∧
    (pyInt "1009" = some (idVal "1009") ∧ format04 (idVal "1009") = "1009") := by
  have hreach : Reachable [(⟨"1000", "Mathematics", "SC", false⟩ : Department)] :=
    ReachableFrom.tail (ReachableFrom.refl [])
      (Step.create [] "Mathematics" "SC" ⟨"1000", "Mathematics", "SC", false⟩
        [⟨"1000", "Mathematics", "SC", false⟩] rfl)
  refine ⟨department_id_well_formed.1 _ hreach ⟨"1000", "Mathematics", "SC", false⟩
    (by decide), ?_, department_id_well_formed.2.2 "1009" (by decide)⟩
  exact (department_id_well_formed.2.1
    [⟨"1001", "Physics", "SC", false⟩, ⟨"1005", "Botany", "LS", false⟩] (by decide)
    ⟨"1005", "Botany", "LS", false⟩ rfl).2 ⟨"1001", "Physics", "SC", false⟩ (by decide)
